import Mathlib

/-!
Shallow embedding of `src/main.py` of `outlook_calendar_visualizer`:
the event-resolution / status-matrix pipeline (`main`, steps 4–8) and the
date-grid header layout of `generate_excel`, together with proofs of the
specification claims about them.

Dates are modelled as proleptic-Gregorian calendar triples, exactly the
arithmetic of Python's `datetime.date`: `toOrdinal` is `date.toordinal()`,
`Date.weekday` is `date.weekday()` (Monday = 0), and `weekKey` is the
`"%U"` week number used by `d.strftime("W%U")`.
-/

structure Date where
  year : Nat
  month : Nat
  day : Nat
deriving DecidableEq

/-- Gregorian leap-year rule, as in Python's `calendar.isleap`. -/
def isLeap (y : Nat) : Bool :=
  y % 4 == 0 && (y % 100 != 0 || y % 400 == 0)

/-- Number of days in a month of a given year. -/
def daysInMonth (y m : Nat) : Nat :=
  if m = 2 then (if isLeap y then 29 else 28)
  else if m = 4 ∨ m = 6 ∨ m = 9 ∨ m = 11 then 30
  else 31

/-- A calendar date Python's `datetime.date` would accept. -/
def Date.Valid (d : Date) : Prop :=
  1 ≤ d.year ∧ 1 ≤ d.month ∧ d.month ≤ 12 ∧ 1 ≤ d.day ∧ d.day ≤ daysInMonth d.year d.month

instance (d : Date) : Decidable d.Valid := by
  unfold Date.Valid; exact inferInstance

/-- Days in the months of year `y` strictly before month `m`
(`_days_before_month` in CPython's `datetime`). -/
def daysBeforeMonth (y : Nat) : Nat → Nat
  | 0 => 0
  | 1 => 0
  | m + 2 => daysBeforeMonth y (m + 1) + daysInMonth y (m + 1)

/-- Days before January 1st of year `y`
(`_days_before_year` in CPython's `datetime`). -/
def daysBeforeYear (y : Nat) : Nat :=
  365 * (y - 1) + (y - 1) / 4 - (y - 1) / 100 + (y - 1) / 400

/-- Python's `date.toordinal()`: day number with 0001-01-01 ↦ 1. -/
def toOrdinal (d : Date) : Nat :=
  daysBeforeYear d.year + daysBeforeMonth d.year d.month + d.day

/-- Python's `date.weekday()`: Monday = 0, …, Sunday = 6. -/
def Date.weekday (d : Date) : Nat := (toOrdinal d + 6) % 7

/-- Day of week with Sunday = 0 (the `tm_wday` convention used by `%U`). -/
def wdaySunday (d : Date) : Nat := toOrdinal d % 7

/-- 1-based day of the year. -/
def dayOfYear (d : Date) : Nat := daysBeforeMonth d.year d.month + d.day

/-- The `strftime("%U")` week-of-year number (weeks start on Sunday; days
before the first Sunday of the year are week 0). -/
def weekKey (d : Date) : Nat := (dayOfYear d + 6 - wdaySunday d) / 7

/-- The `strftime("%B %Y")` month label, represented by the pair
(year, month), which the label determines uniquely. -/
def monthKey (d : Date) : Nat × Nat := (d.year, d.month)

/-- Linearisation of `monthKey` used in monotonicity arguments. -/
def monthIdx (d : Date) : Nat := d.year * 12 + d.month

/-- The calendar successor of a date (`d + timedelta(days=1)`). -/
def nextDate (d : Date) : Date :=
  if d.day < daysInMonth d.year d.month then ⟨d.year, d.month, d.day + 1⟩
  else if d.month < 12 then ⟨d.year, d.month + 1, 1⟩
  else ⟨d.year + 1, 1, 1⟩

/-- `d + timedelta(days=n)`. -/
def addDays (d : Date) (n : Nat) : Date := nextDate^[n] d

theorem valid_mk_iff (y m dd : Nat) :
    (Date.mk y m dd).Valid ↔ (1 ≤ y ∧ 1 ≤ m ∧ m ≤ 12 ∧ 1 ≤ dd ∧ dd ≤ daysInMonth y m) :=
  Iff.rfl

theorem toOrdinal_mk (y m dd : Nat) :
    toOrdinal (Date.mk y m dd) = daysBeforeYear y + daysBeforeMonth y m + dd :=
  rfl

theorem daysInMonth_pos (y m : Nat) : 1 ≤ daysInMonth y m := by
  unfold daysInMonth
  split
  · split <;> omega
  · split <;> omega

theorem valid_nextDate {d : Date} (h : d.Valid) : (nextDate d).Valid := by
  obtain ⟨hy, hm1, hm2, hd1, hd2⟩ := h
  unfold nextDate
  split
  · rw [valid_mk_iff]
    exact ⟨hy, hm1, hm2, by omega, by omega⟩
  · split
    · rw [valid_mk_iff]
      exact ⟨hy, by omega, by omega, by omega, daysInMonth_pos _ _⟩
    · rw [valid_mk_iff]
      exact ⟨by omega, by omega, by omega, by omega, daysInMonth_pos _ _⟩

theorem daysBeforeMonth_succ (y m : Nat) (h : 1 ≤ m) :
    daysBeforeMonth y (m + 1) = daysBeforeMonth y m + daysInMonth y m := by
  match m, h with
  | m + 1, _ => rfl

theorem daysBeforeMonth_year (y : Nat) :
    daysBeforeMonth y 13 = 365 + (if isLeap y then 1 else 0) := by
  show daysBeforeMonth y 1 + daysInMonth y 1 + daysInMonth y 2 + daysInMonth y 3 + daysInMonth y 4
      + daysInMonth y 5 + daysInMonth y 6 + daysInMonth y 7 + daysInMonth y 8 + daysInMonth y 9
      + daysInMonth y 10 + daysInMonth y 11 + daysInMonth y 12 = _
  simp [daysBeforeMonth, daysInMonth]
  cases isLeap y <;> simp

theorem isLeap_iff (y : Nat) : isLeap y = true ↔ (y % 4 = 0 ∧ (y % 100 ≠ 0 ∨ y % 400 = 0)) := by
  simp [isLeap]

theorem daysBeforeYear_succ (y : Nat) (hy : 1 ≤ y) :
    daysBeforeYear (y + 1) = daysBeforeYear y + 365 + (if isLeap y then 1 else 0) := by
  by_cases h : isLeap y = true
  · rw [if_pos h, isLeap_iff] at *
    unfold daysBeforeYear
    omega
  · rw [if_neg h, isLeap_iff] at *
    unfold daysBeforeYear
    rcases Nat.eq_zero_or_pos (y % 4) with h4 | h4
    · rcases Nat.eq_zero_or_pos (y % 100) with h100 | h100
      · rcases Nat.eq_zero_or_pos (y % 400) with h400 | h400
        · omega
        · omega
      · omega
    · omega

theorem monthIdx_mk (y m dd : Nat) : monthIdx (Date.mk y m dd) = y * 12 + m := rfl

theorem toOrdinal_nextDate {d : Date} (h : d.Valid) :
    toOrdinal (nextDate d) = toOrdinal d + 1 := by
  obtain ⟨hy, hm1, hm2, hd1, hd2⟩ := h
  have hord : toOrdinal d = daysBeforeYear d.year + daysBeforeMonth d.year d.month + d.day := rfl
  unfold nextDate
  split
  · rw [toOrdinal_mk, hord]; omega
  · split
    · rw [toOrdinal_mk, hord, daysBeforeMonth_succ d.year d.month hm1]; omega
    · have hm12 : d.month = 12 := by omega
      have hdim : daysInMonth d.year 12 = 31 := by simp [daysInMonth]
      have hday : d.day = 31 := by
        have h1 : ¬ d.day < daysInMonth d.year d.month := by assumption
        rw [hm12] at hd2 h1
        omega
      have h13 : daysBeforeMonth d.year 13 = daysBeforeMonth d.year 12 + 31 := by
        rw [daysBeforeMonth_succ d.year 12 (by omega), hdim]
      have hyr := daysBeforeMonth_year d.year
      rw [toOrdinal_mk, daysBeforeYear_succ d.year hy, hord, hm12, hday]
      have hbm1 : daysBeforeMonth (d.year + 1) 1 = 0 := rfl
      rw [hbm1]
      omega

theorem monthIdx_nextDate {d : Date} (h : d.Valid) :
    monthIdx d ≤ monthIdx (nextDate d) := by
  obtain ⟨hy, hm1, hm2, hd1, hd2⟩ := h
  have h1 : monthIdx d = d.year * 12 + d.month := rfl
  have h2 : monthIdx ⟨d.year, d.month + 1, 1⟩ = d.year * 12 + (d.month + 1) := rfl
  have h3 : monthIdx ⟨d.year + 1, 1, 1⟩ = (d.year + 1) * 12 + 1 := rfl
  unfold nextDate
  split
  · exact le_refl _
  · split
    · rw [h2, h1]; omega
    · rw [h3, h1]; omega

theorem monthIdx_eq_nextDate {d : Date} (h : d.Valid)
    (heq : monthIdx d = monthIdx (nextDate d)) :
    d.day < daysInMonth d.year d.month := by
  obtain ⟨hy, hm1, hm2, hd1, hd2⟩ := h
  have h1 : monthIdx d = d.year * 12 + d.month := rfl
  have h2 : monthIdx ⟨d.year, d.month + 1, 1⟩ = d.year * 12 + (d.month + 1) := rfl
  have h3 : monthIdx ⟨d.year + 1, 1, 1⟩ = (d.year + 1) * 12 + 1 := rfl
  by_contra hlt
  unfold nextDate at heq
  rw [if_neg hlt] at heq
  by_cases hm : d.month < 12
  · rw [if_pos hm, h2, h1] at heq
    omega
  · rw [if_neg hm, h3, h1] at heq
    omega

/-- The combined (month, week-within-month) order used to show the header
grouping keys appear in chronological runs. -/
def Rmw (a b : Date) : Prop :=
  monthIdx a ≤ monthIdx b ∧ (monthIdx a = monthIdx b → weekKey a ≤ weekKey b)

theorem Rmw_refl (d : Date) : Rmw d d := ⟨le_refl _, fun _ => le_refl _⟩

theorem Rmw_trans {a b c : Date} (h1 : Rmw a b) (h2 : Rmw b c) : Rmw a c := by
  refine ⟨le_trans h1.1 h2.1, fun h => ?_⟩
  have hab : monthIdx a = monthIdx b := le_antisymm h1.1 (h ▸ h2.1)
  have hbc : monthIdx b = monthIdx c := hab ▸ h
  exact le_trans (h1.2 hab) (h2.2 hbc)

theorem weekKey_nextDate_same_month {d : Date} (h : d.Valid)
    (heq : monthIdx d = monthIdx (nextDate d)) :
    weekKey d ≤ weekKey (nextDate d) := by
  have hlt := monthIdx_eq_nextDate h heq
  have hnd : nextDate d = ⟨d.year, d.month, d.day + 1⟩ := by
    unfold nextDate; rw [if_pos hlt]
  rw [hnd]
  unfold weekKey dayOfYear wdaySunday toOrdinal
  dsimp only
  omega

theorem Rmw_nextDate {d : Date} (h : d.Valid) : Rmw d (nextDate d) :=
  ⟨monthIdx_nextDate h, fun heq => weekKey_nextDate_same_month h heq⟩

theorem addDays_succ (d : Date) (n : Nat) : addDays d (n + 1) = nextDate (addDays d n) := by
  unfold addDays
  rw [Function.iterate_succ_apply']

theorem valid_addDays {d : Date} (h : d.Valid) (n : Nat) : (addDays d n).Valid := by
  induction n with
  | zero => exact h
  | succ n ih =>
      rw [addDays_succ]
      exact valid_nextDate ih

theorem toOrdinal_addDays {d : Date} (h : d.Valid) (n : Nat) :
    toOrdinal (addDays d n) = toOrdinal d + n := by
  induction n with
  | zero => rfl
  | succ n ih =>
      rw [addDays_succ, toOrdinal_nextDate (valid_addDays h n), ih]
      omega

theorem addDays_add (d : Date) (m n : Nat) :
    addDays (addDays d m) n = addDays d (m + n) := by
  unfold addDays
  rw [Nat.add_comm m n, Function.iterate_add_apply]

theorem Rmw_addDays {d : Date} (h : d.Valid) {i j : Nat} (hij : i ≤ j) :
    Rmw (addDays d i) (addDays d j) := by
  induction j with
  | zero =>
      have : i = 0 := by omega
      subst this; exact Rmw_refl _
  | succ j ih =>
      rcases Nat.lt_or_ge i (j + 1) with hlt | hge
      · have hij' : i ≤ j := by omega
        refine Rmw_trans (ih hij') ?_
        rw [addDays_succ]
        exact Rmw_nextDate (valid_addDays h j)
      · have : i = j + 1 := by omega
        subst this; exact Rmw_refl _

/-!
## The event-resolution pipeline (`main`, steps 4–8 of `src/main.py`)

Employees are the flat roster produced by `flatten_employees` (name and
location); `EmpState` is an employee dict after step 7 has attached the
`PTO`, `Travel` and `Holiday` date lists.
-/

structure RawEvent where
  name : String
  start_date : Date
  end_date : Date
  type : String
deriving DecidableEq

structure Employee where
  name : String
  location : String
deriving DecidableEq

structure EmpState where
  name : String
  location : String
  pto : List Date
  travel : List Date
  holiday : List Date
deriving DecidableEq

/-- Step 7 initialisation (lines 274–277): every employee gets empty
`PTO`, `Travel`, `Holiday` lists. -/
def initState (roster : List Employee) : List EmpState :=
  roster.map fun e => ⟨e.name, e.location, [], [], []⟩

/-- Line 285: `[event.start_date + timedelta(days=i) for i in
range((event.end_date - event.start_date).days)]` — exclusive of the end
date; an end not after the start yields the empty list, as Python's
`range` does on a non-positive argument. -/
def eventDates (ev : RawEvent) : List Date :=
  (List.range (toOrdinal ev.end_date - toOrdinal ev.start_date)).map (addDays ev.start_date)

/-- Lines 287–298: the body of `for name_or_tag in event['employee']`.
`employee_map` contains exactly the roster names, so the
`name_or_tag in employee_map` test is membership in the state's names. -/
def applyTarget (ev : RawEvent) (tag : String) (st : List EmpState) : List EmpState :=
  if tag = "_HOLIDAY_US" then
    st.map fun e =>
      if e.location = "US" then { e with holiday := e.holiday ++ eventDates ev } else e
  else if tag = "_HOLIDAY_FRANCE" then
    st.map fun e =>
      if e.location = "France" then { e with holiday := e.holiday ++ eventDates ev } else e
  else if tag = "_HOLIDAY_COMPANY" then
    st.map fun e => { e with holiday := e.holiday ++ eventDates ev }
  else if (st.map EmpState.name).contains tag then
    if ev.type = "P" then
      st.map fun e => if e.name = tag then { e with pto := e.pto ++ eventDates ev } else e
    else if ev.type = "T" then
      st.map fun e => if e.name = tag then { e with travel := e.travel ++ eventDates ev } else e
    else st
  else st

/-- Lines 281–298: one iteration of `for event in events_in_range` inside
step 7; an event with an empty target list changes nothing (the
`continue` at line 282–283). -/
def applyEvent (st : List EmpState) (ev : RawEvent) (targets : List String) : List EmpState :=
  targets.foldl (fun st tag => applyTarget ev tag st) st

/-- Step 7's main loop over all associated events. -/
def processEvents (st : List EmpState) (evs : List (RawEvent × List String)) : List EmpState :=
  evs.foldl (fun st p => applyEvent st p.1 p.2) st

/-- Python `event_to_employee_map.get(name)` (JSON object keys are
unique, so first match is the binding). -/
def lookupMap (mapping : List (String × List String)) (n : String) : Option (List String) :=
  match mapping with
  | [] => none
  | (k, v) :: rest => if k = n then some v else lookupMap rest n

/-- Lines 261–268 (step 6): attach the resolver's target list to each
event; a missing mapping means an empty target list and the event name is
added to `unmatched_event_names`. -/
def associate (mapping : List (String × List String)) (events : List RawEvent) :
    List (RawEvent × List String) × List String :=
  events.foldl
    (fun acc ev =>
      match lookupMap mapping ev.name with
      | some ts => (acc.1 ++ [(ev, ts)], acc.2)
      | none => (acc.1 ++ [(ev, [])], acc.2 ++ [ev.name]))
    ([], [])

/-- Lines 246–249 (step 4): keep events overlapping the reporting window
`[start_date, end_date)`: `start_date < end_date and end_date >
start_date` on Python dates, i.e. on ordinals. -/
def eventsInRange (events : List RawEvent) (wstart wend : Date) : List RawEvent :=
  events.filter fun ev =>
    toOrdinal ev.start_date < toOrdinal wend && toOrdinal wstart < toOrdinal ev.end_date

/-- Steps 4, 6 and 7 composed: the per-employee date lists together with
the `unmatched_event_names` diagnostic set. -/
def runPipeline (roster : List Employee) (events : List RawEvent)
    (mapping : List (String × List String)) (wstart wend : Date) :
    List EmpState × List String :=
  let inRange := eventsInRange events wstart wend
  let assoc := associate mapping inRange
  (processEvents (initState roster) assoc.1, assoc.2)

/-- Step 8 inner loops (lines 304–306): write status `c` at every date of
`ds` into one employee's row of `processed_data`, overwriting. -/
def setDates (m : Date → Option Char) (ds : List Date) (c : Char) : Date → Option Char :=
  ds.foldl (fun m d => fun x => if x = d then some c else m x) m

/-- Step 8 (lines 302–306) for one employee: start from an empty row, then
set `'P'` on the PTO dates, `'T'` on the Travel dates and `'H'` on the
Holiday dates, in that order, each pass overwriting. -/
def empMatrix (e : EmpState) : Date → Option Char :=
  setDates (setDates (setDates (fun _ => none) e.pto 'P') e.travel 'T') e.holiday 'H'

/-- The status matrix: `processed_data[name].get(d)`; `none` both for a
roster member with no marked day and for a name with no row. -/
def lookupStatus (sts : List EmpState) (n : String) (d : Date) : Option Char :=
  match sts.find? (fun e => e.name = n) with
  | some e => empMatrix e d
  | none => none

/-!
## Insertion-ordered dictionaries (`defaultdict` grouping, lines 145–147)

`bucketModify k f d0` models `buckets[k] = f(buckets.get(k, d0))` on an
insertion-ordered dictionary rendered as an association list;
`dates_by_month_week[month][week].append(d)` is a nested such update.
-/

def bucketModify {K B : Type} [DecidableEq K] (k : K) (f : B → B) (d0 : B) :
    List (K × B) → List (K × B)
  | [] => [(k, f d0)]
  | (k', b) :: rest =>
      if k = k' then (k', f b) :: rest else (k', b) :: bucketModify k f d0 rest

def bucketInsert {K V : Type} [DecidableEq K] (k : K) (v : V)
    (buckets : List (K × List V)) : List (K × List V) :=
  bucketModify k (fun vs => vs ++ [v]) [] buckets

/-- Insertion-ordered grouping of a list by a key (a Python
`defaultdict(list)` filled in list order). -/
def groupByKey {A K : Type} [DecidableEq K] (key : A → K) (l : List A) :
    List (K × List A) :=
  l.foldl (fun acc a => bucketInsert (key a) a acc) []

/-- Lines 145–147: `dates_by_month_week[d.strftime("%B %Y")][d.strftime("W%U")].append(d)`
over the weekday dates, in order. -/
def datesByMonthWeek (l : List Date) : List ((Nat × Nat) × List (Nat × List Date)) :=
  l.foldl (fun acc d => bucketModify (monthKey d) (bucketInsert (weekKey d) d) [] acc) []

theorem bucketModify_not_mem {K B : Type} [DecidableEq K] (k : K) (f : B → B) (d0 : B)
    (G : List (K × B)) (h : k ∉ G.map Prod.fst) :
    bucketModify k f d0 G = G ++ [(k, f d0)] := by
  induction G with
  | nil => rfl
  | cons p rest ih =>
      obtain ⟨k', b⟩ := p
      simp only [List.map_cons, List.mem_cons] at h
      push_neg at h
      unfold bucketModify
      rw [if_neg h.1]
      simp [ih h.2]

theorem bucketModify_last {K B : Type} [DecidableEq K] (k : K) (f : B → B) (d0 : B)
    (G : List (K × B)) (b : B) (h : k ∉ G.map Prod.fst) :
    bucketModify k f d0 (G ++ [(k, b)]) = G ++ [(k, f b)] := by
  induction G with
  | nil => simp [bucketModify]
  | cons p rest ih =>
      obtain ⟨k', b'⟩ := p
      simp only [List.map_cons, List.mem_cons] at h
      push_neg at h
      simp only [List.cons_append]
      unfold bucketModify
      rw [if_neg h.1]
      simp [ih h.2]

theorem groupByKey_append_singleton {A K : Type} [DecidableEq K] (key : A → K)
    (l : List A) (a : A) :
    groupByKey key (l ++ [a]) = bucketInsert (key a) a (groupByKey key l) := by
  unfold groupByKey
  rw [List.foldl_append]
  rfl

theorem datesByMonthWeek_append_singleton (l : List Date) (d : Date) :
    datesByMonthWeek (l ++ [d])
      = bucketModify (monthKey d) (bucketInsert (weekKey d) d) [] (datesByMonthWeek l) := by
  unfold datesByMonthWeek
  rw [List.foldl_append]
  rfl

theorem groupByKey_spec {A K : Type} [DecidableEq K] (key : A → K) (μ : A → Nat)
    (l : List A)
    (hmono : l.Pairwise (fun a b => μ a ≤ μ b))
    (hsep : ∀ a ∈ l, ∀ b ∈ l, (key a = key b ↔ μ a = μ b)) :
    ((groupByKey key l).map Prod.snd).flatten = l
    ∧ (∀ p ∈ groupByKey key l, p.2 ≠ [] ∧ p.2.Sublist l ∧ ∀ x ∈ p.2, key x = p.1)
    ∧ ((groupByKey key l).map Prod.fst).Nodup := by
  induction l using List.reverseRecOn with
  | nil => simp [groupByKey]
  | append_singleton l a ih =>
      have hsubl : l.Sublist (l ++ [a]) := List.sublist_append_left l [a]
      have hmono' : l.Pairwise (fun a b => μ a ≤ μ b) := hmono.sublist hsubl
      have hsep' : ∀ x ∈ l, ∀ b ∈ l, (key x = key b ↔ μ x = μ b) := fun x hx b hb =>
        hsep x (hsubl.mem hx) b (hsubl.mem hb)
      obtain ⟨ihf, ihp, ihn⟩ := ih hmono' hsep'
      have hlast : ∀ x ∈ l, μ x ≤ μ a := fun x hx =>
        (List.pairwise_append.mp hmono).2.2 x hx a (List.mem_singleton_self a)
      rw [groupByKey_append_singleton]
      by_cases hk : key a ∈ (groupByKey key l).map Prod.fst
      · rcases (groupByKey key l).eq_nil_or_concat' with hG | ⟨G₀, q, hG⟩
        · rw [hG] at hk; simp at hk
        · obtain ⟨qk, qv⟩ := q
          have hq : qk = key a := by
            by_contra hq
            obtain ⟨p, hpG, hpk⟩ := List.mem_map.mp hk
            have hpG0 : p ∈ G₀ := by
              rw [hG] at hpG
              rcases List.mem_append.mp hpG with h | h
              · exact h
              · exfalso
                rw [List.mem_singleton.mp h] at hpk
                exact hq hpk
            obtain ⟨hpne, hpsub, hpkeys⟩ := ihp p hpG
            have hqmem : (qk, qv) ∈ groupByKey key l := by
              rw [hG]; exact List.mem_append_right _ (List.mem_singleton_self _)
            obtain ⟨hqne, hqsub, hqkeys⟩ := ihp (qk, qv) hqmem
            obtain ⟨x, hx⟩ := List.exists_mem_of_ne_nil _ hpne
            obtain ⟨y, hy⟩ := List.exists_mem_of_ne_nil _ hqne
            have hcross : (((groupByKey key l).map Prod.snd).Pairwise
                fun l₁ l₂ => ∀ u ∈ l₁, ∀ v ∈ l₂, μ u ≤ μ v) := by
              have := ihf ▸ hmono'
              exact (List.pairwise_flatten.mp this).2
            have hxy : μ x ≤ μ y := by
              rw [hG] at hcross
              simp only [List.map_append, List.map_cons, List.map_nil] at hcross
              have h2 := (List.pairwise_append.mp hcross).2.2
              exact h2 p.2 (List.mem_map_of_mem Prod.snd hpG0) qv
                (List.mem_singleton_self _) x hx y hy
            have hxl : x ∈ l := hpsub.mem hx
            have hyl : y ∈ l := hqsub.mem hy
            have hxa : μ x = μ a := by
              have hkey : key x = key a := by rw [hpkeys x hx, hpk]
              exact (hsep x (hsubl.mem hxl) a (List.mem_append_right l
                (List.mem_singleton_self a))).mp hkey
            have hya : μ y = μ a := by
              have h1 := hlast y hyl
              omega
            have hkeyya : key y = key a :=
              (hsep y (hsubl.mem hyl) a (List.mem_append_right l
                (List.mem_singleton_self a))).mpr hya
            rw [hqkeys y hy] at hkeyya
            exact hq hkeyya
          have hnotin : key a ∉ G₀.map Prod.fst := by
            have := ihn
            rw [hG] at this
            simp only [List.map_append, List.map_cons, List.map_nil] at this
            rw [List.nodup_append] at this
            intro hmem
            exact this.2.2 hmem (by simp [hq])
          subst hq
          rw [hG, bucketInsert, bucketModify_last _ _ _ _ _ hnotin]
          have hqmem : (key a, qv) ∈ groupByKey key l := by
            rw [hG]; exact List.mem_append_right _ (List.mem_singleton_self _)
          obtain ⟨hqne, hqsub, hqkeys⟩ := ihp (key a, qv) hqmem
          refine ⟨?_, ?_, ?_⟩
          · rw [hG] at ihf
            simp only [List.map_append, List.map_cons, List.map_nil,
              List.flatten_append, List.flatten_cons, List.flatten_nil,
              List.append_nil] at ihf ⊢
            rw [← List.append_assoc, ihf]
          · intro p hp
            rcases List.mem_append.mp hp with h | h
            · have hpG : p ∈ groupByKey key l := by
                rw [hG]; exact List.mem_append_left _ h
              obtain ⟨h1, h2, h3⟩ := ihp p hpG
              exact ⟨h1, h2.trans hsubl, h3⟩
            · rw [List.mem_singleton.mp h]
              refine ⟨by simp, hqsub.append (List.Sublist.refl [a]), ?_⟩
              intro x hx
              rcases List.mem_append.mp hx with h | h
              · exact hqkeys x h
              · rw [List.mem_singleton.mp h]
          · have : (G₀ ++ [(key a, qv ++ [a])]).map Prod.fst
                = (groupByKey key l).map Prod.fst := by
              rw [hG]; simp
            rw [this]
            exact ihn
      · rw [bucketInsert, bucketModify_not_mem _ _ _ _ hk]
        refine ⟨?_, ?_, ?_⟩
        · simp only [List.map_append, List.map_cons, List.map_nil,
            List.flatten_append, List.flatten_cons, List.flatten_nil,
            List.append_nil, List.nil_append]
          rw [ihf]
        · intro p hp
          rcases List.mem_append.mp hp with h | h
          · obtain ⟨h1, h2, h3⟩ := ihp p h
            exact ⟨h1, h2.trans hsubl, h3⟩
          · rw [List.mem_singleton.mp h]
            refine ⟨by simp, ?_, ?_⟩
            · simp only [List.nil_append]
              exact (List.sublist_append_right l [a])
            · intro x hx
              simp only [List.nil_append, List.mem_singleton] at hx
              rw [hx]
        · simp only [List.map_append, List.map_cons, List.map_nil]
          rw [List.nodup_append]
          exact ⟨ihn, List.nodup_singleton _, by simpa using hk⟩

theorem bucketModify_map_value {K B C : Type} [DecidableEq K]
    (g : B → C) (f : B → B) (f' : C → C) (d0 : B)
    (hcomm : ∀ b, g (f b) = f' (g b))
    (G : List (K × B)) (k : K) :
    (bucketModify k f d0 G).map (fun p => (p.1, g p.2))
      = bucketModify k f' (g d0) (G.map (fun p => (p.1, g p.2))) := by
  induction G with
  | nil => simp [bucketModify, hcomm]
  | cons p rest ih =>
      obtain ⟨k', b⟩ := p
      by_cases hk : k = k'
      · simp [bucketModify, hk, hcomm]
      · simp [bucketModify, hk, ih]

/-- The one-pass nested `defaultdict` fill equals grouping by month and
then grouping each month's dates by week. -/
theorem datesByMonthWeek_eq (l : List Date) :
    datesByMonthWeek l
      = (groupByKey monthKey l).map (fun p => (p.1, groupByKey weekKey p.2)) := by
  induction l using List.reverseRecOn with
  | nil => rfl
  | append_singleton l d ih =>
      rw [datesByMonthWeek_append_singleton, ih, groupByKey_append_singleton, bucketInsert,
        bucketModify_map_value (groupByKey weekKey) (fun vs => vs ++ [d])
          (bucketInsert (weekKey d) d) []
          (fun vs => groupByKey_append_singleton weekKey vs d)]
      rfl

/-!
## The header layout walk (`generate_excel`, lines 141–174)

`layoutDays`/`layoutWeeks`/`layoutMonths` replay the three nested loops:
`col` is `current_col`, day cells are the row-3 writes, and each emged
span `(start, stop)` is a `merge_cells(..., start_column=start,
end_column=stop)` call, kept with its guard.
-/

structure MonthHeader where
  key : Nat × Nat
  startCol : Nat
  stopCol : Nat
  weeks : List (Nat × Nat × Nat)
deriving DecidableEq

/-- Lines 158–162: write one day cell per date, advancing `current_col`. -/
def layoutDays (col : Nat) : List Date → Nat × List (Nat × Date)
  | [] => (col, [])
  | d :: ds =>
      let r := layoutDays (col + 1) ds
      (r.1, (col, d) :: r.2)

/-- Lines 156–168: per week group, lay out its days and (when the group
is nonempty) merge row 2 from `week_start_col` to `current_col - 1`. -/
def layoutWeeks (col : Nat) :
    List (Nat × List Date) → Nat × List (Nat × Date) × List (Nat × Nat × Nat)
  | [] => (col, [], [])
  | (w, D) :: ws =>
      let r1 := layoutDays col D
      let here := if 0 < D.length then [(w, col, r1.1 - 1)] else []
      let r2 := layoutWeeks r1.1 ws
      (r2.1, r1.2 ++ r2.2.1, here ++ r2.2.2)

/-- Lines 154–174: per month group, lay out its weeks and (when at least
one column was written) merge row 1 from `month_start_col` to
`current_col - 1`. -/
def layoutMonths (col : Nat) :
    List ((Nat × Nat) × List (Nat × List Date)) → Nat × List (Nat × Date) × List MonthHeader
  | [] => (col, [], [])
  | (mk, W) :: ms =>
      let r1 := layoutWeeks col W
      let here := if col ≤ r1.1 - 1 then [⟨mk, col, r1.1 - 1, r1.2.2⟩] else []
      let r2 := layoutMonths r1.1 ms
      (r2.1, r1.2.1 ++ r2.2.1, here ++ r2.2.2)

/-- Line 141: `[start_date + timedelta(days=i) for i in
range((end_date - start_date).days + 1)]` — the inclusive range. -/
def gridDates (s e : Date) : List Date :=
  (List.range (toOrdinal e + 1 - toOrdinal s)).map (addDays s)

/-- Line 142: `[d for d in all_dates if d.weekday() < 5]`. -/
def weekdaysOf (s e : Date) : List Date :=
  (gridDates s e).filter (fun d => d.weekday < 5)

/-- The whole header construction of `generate_excel`: final
`current_col`, the row-3 day cells, and the month headers (with their
week headers); data columns start at column 2. -/
def layoutHeader (s e : Date) : Nat × List (Nat × Date) × List MonthHeader :=
  layoutMonths 2 (datesByMonthWeek (weekdaysOf s e))

def weekTotal (W : List (Nat × List Date)) : Nat := (W.map (fun w => w.2.length)).sum

def monthTotal (G : List ((Nat × Nat) × List (Nat × List Date))) : Nat :=
  (G.map (fun p => weekTotal p.2)).sum

theorem weekTotal_bucketInsert (w : Nat) (d : Date) (W : List (Nat × List Date)) :
    weekTotal (bucketInsert w d W) = weekTotal W + 1 := by
  induction W with
  | nil => simp [bucketInsert, bucketModify, weekTotal]
  | cons p rest ih =>
      obtain ⟨w', D⟩ := p
      by_cases hw : w = w'
      · simp [bucketInsert, bucketModify, hw, weekTotal]
        omega
      · simp only [bucketInsert, bucketModify, if_neg hw, weekTotal, List.map_cons,
          List.sum_cons] at *
        omega

theorem monthTotal_insert (mk : Nat × Nat) (w : Nat) (d : Date)
    (G : List ((Nat × Nat) × List (Nat × List Date))) :
    monthTotal (bucketModify mk (bucketInsert w d) [] G) = monthTotal G + 1 := by
  induction G with
  | nil =>
      show monthTotal [(mk, bucketInsert w d [])] = monthTotal [] + 1
      have h1 : monthTotal [(mk, bucketInsert w d [])] = weekTotal (bucketInsert w d []) := by
        simp [monthTotal]
      rw [h1, weekTotal_bucketInsert]
      rfl
  | cons p rest ih =>
      obtain ⟨mk', W⟩ := p
      by_cases hm : mk = mk'
      · simp [bucketModify, hm, monthTotal, weekTotal_bucketInsert]
        omega
      · simp only [bucketModify, if_neg hm, monthTotal, List.map_cons, List.sum_cons] at *
        omega

theorem monthTotal_datesByMonthWeek (l : List Date) :
    monthTotal (datesByMonthWeek l) = l.length := by
  induction l using List.reverseRecOn with
  | nil => rfl
  | append_singleton l d ih =>
      rw [datesByMonthWeek_append_singleton, monthTotal_insert]
      simp [ih]

theorem layoutDays_spec (D : List Date) : ∀ col : Nat,
    layoutDays col D = (col + D.length, (List.range' col D.length).zip D) := by
  induction D with
  | nil => intro col; simp [layoutDays]
  | cons d ds ih =>
      intro col
      simp only [layoutDays, ih (col + 1), List.length_cons, List.range'_succ, List.zip_cons_cons]
      simp only [Prod.mk.injEq]
      exact ⟨by omega, trivial⟩

theorem layoutWeeks_count (W : List (Nat × List Date)) : ∀ col : Nat,
    (layoutWeeks col W).1 = col + weekTotal W
    ∧ (layoutWeeks col W).2.1.length = weekTotal W := by
  induction W with
  | nil => intro col; simp [layoutWeeks, weekTotal]
  | cons p ws ih =>
      intro col
      obtain ⟨w, D⟩ := p
      obtain ⟨ih1, ih2⟩ := ih (col + D.length)
      have hwt : weekTotal ((w, D) :: ws) = D.length + weekTotal ws := by
        simp [weekTotal]
      have h1 : (layoutWeeks col ((w, D) :: ws)).1 = (layoutWeeks (col + D.length) ws).1 := by
        simp [layoutWeeks, layoutDays_spec]
      have h2 : (layoutWeeks col ((w, D) :: ws)).2.1
          = (List.range' col D.length).zip D ++ (layoutWeeks (col + D.length) ws).2.1 := by
        simp [layoutWeeks, layoutDays_spec]
      rw [h1, h2, hwt]
      constructor
      · rw [ih1]; omega
      · rw [List.length_append, ih2]
        simp [List.length_zip, List.length_range']

theorem layoutMonths_count (G : List ((Nat × Nat) × List (Nat × List Date))) : ∀ col : Nat,
    (layoutMonths col G).1 = col + monthTotal G
    ∧ (layoutMonths col G).2.1.length = monthTotal G := by
  induction G with
  | nil => intro col; simp [layoutMonths, monthTotal]
  | cons p ms ih =>
      intro col
      obtain ⟨mk, W⟩ := p
      obtain ⟨hw1, hw2⟩ := layoutWeeks_count W col
      obtain ⟨ih1, ih2⟩ := ih ((layoutWeeks col W).1)
      have hmt : monthTotal ((mk, W) :: ms) = weekTotal W + monthTotal ms := by
        simp [monthTotal]
      have h1 : (layoutMonths col ((mk, W) :: ms)).1
          = (layoutMonths (layoutWeeks col W).1 ms).1 := by
        simp [layoutMonths]
      have h2 : (layoutMonths col ((mk, W) :: ms)).2.1
          = (layoutWeeks col W).2.1 ++ (layoutMonths (layoutWeeks col W).1 ms).2.1 := by
        simp [layoutMonths]
      rw [h1, h2, hmt]
      constructor
      · rw [ih1, hw1]; omega
      · rw [List.length_append, ih2, hw2]

theorem range'_split (s m n : Nat) :
    List.range' s (m + n) = List.range' s m ++ List.range' (s + m) n := by
  have h := List.range'_append s m n 1
  simp only [Nat.one_mul] at h
  rw [Nat.add_comm n m] at h
  exact h.symm

theorem weekTotal_pos (W : List (Nat × List Date)) (hW : W ≠ [])
    (hne : ∀ w ∈ W, w.2 ≠ []) : 1 ≤ weekTotal W := by
  match W with
  | (w, D) :: ws =>
      have hD : D ≠ [] := hne (w, D) (List.mem_cons_self _ _)
      have : 0 < D.length := List.length_pos.mpr hD
      simp [weekTotal]
      omega

theorem flatten_snd_length (W : List (Nat × List Date)) :
    ((W.map Prod.snd).flatten).length = weekTotal W := by
  unfold weekTotal
  simp
  rfl

theorem layoutWeeks_spec (W : List (Nat × List Date)) : ∀ col : Nat,
    (∀ w ∈ W, w.2 ≠ []) →
    (layoutWeeks col W).2.1 = (List.range' col (weekTotal W)).zip ((W.map Prod.snd).flatten)
    ∧ ((layoutWeeks col W).2.2.map
        (fun w => List.range' w.2.1 (w.2.2 + 1 - w.2.1))).flatten
      = List.range' col (weekTotal W) := by
  induction W with
  | nil => intro col h; simp [layoutWeeks, weekTotal]
  | cons p ws ih =>
      intro col hne
      obtain ⟨w, D⟩ := p
      have hD : D ≠ [] := hne (w, D) (List.mem_cons_self _ _)
      have hDlen : 0 < D.length := List.length_pos.mpr hD
      obtain ⟨ih1, ih2⟩ := ih (col + D.length) (fun x hx => hne x (List.mem_cons_of_mem _ hx))
      have hwt : weekTotal ((w, D) :: ws) = D.length + weekTotal ws := by simp [weekTotal]
      have h2 : (layoutWeeks col ((w, D) :: ws)).2.1
          = (List.range' col D.length).zip D ++ (layoutWeeks (col + D.length) ws).2.1 := by
        simp [layoutWeeks, layoutDays_spec]
      have h3 : (layoutWeeks col ((w, D) :: ws)).2.2
          = (w, col, col + D.length - 1) :: (layoutWeeks (col + D.length) ws).2.2 := by
        simp [layoutWeeks, layoutDays_spec, hDlen]
      constructor
      · rw [h2, ih1, hwt, range'_split]
        have hmapflat : (((w, D) :: ws).map Prod.snd).flatten
            = D ++ (ws.map Prod.snd).flatten := by simp
        rw [hmapflat, List.zip_append (by simp)]
      · rw [h3]
        simp only [List.map_cons, List.flatten_cons]
        rw [ih2]
        have hspan : List.range' col (col + D.length - 1 + 1 - col)
            = List.range' col D.length := by
          congr 1
          omega
        rw [hspan, hwt, range'_split]

theorem layoutMonths_spec (G : List ((Nat × Nat) × List (Nat × List Date))) : ∀ col : Nat,
    (∀ p ∈ G, p.2 ≠ [] ∧ ∀ w ∈ p.2, w.2 ≠ []) →
    (layoutMonths col G).2.1
        = (List.range' col (monthTotal G)).zip
            ((G.map (fun p => (p.2.map Prod.snd).flatten)).flatten)
    ∧ ((layoutMonths col G).2.2.map
        (fun m => List.range' m.startCol (m.stopCol + 1 - m.startCol))).flatten
      = List.range' col (monthTotal G)
    ∧ ∀ m ∈ (layoutMonths col G).2.2,
        (m.weeks.map (fun w => List.range' w.2.1 (w.2.2 + 1 - w.2.1))).flatten
          = List.range' m.startCol (m.stopCol + 1 - m.startCol) := by
  induction G with
  | nil => intro col h; simp [layoutMonths, monthTotal]
  | cons p ms ih =>
      intro col hne
      obtain ⟨mk, W⟩ := p
      have hWne : W ≠ [] := (hne (mk, W) (List.mem_cons_self _ _)).1
      have hwne : ∀ w ∈ W, w.2 ≠ [] := (hne (mk, W) (List.mem_cons_self _ _)).2
      have hpos : 1 ≤ weekTotal W := weekTotal_pos W hWne hwne
      obtain ⟨hws1, hws2⟩ := layoutWeeks_spec W col hwne
      obtain ⟨hw1, _⟩ := layoutWeeks_count W col
      obtain ⟨ih1, ih2, ih3⟩ := ih ((layoutWeeks col W).1)
        (fun x hx => hne x (List.mem_cons_of_mem _ hx))
      have hmt : monthTotal ((mk, W) :: ms) = weekTotal W + monthTotal ms := by
        simp [monthTotal]
      have hguard : col ≤ (layoutWeeks col W).1 - 1 := by rw [hw1]; omega
      have h1 : (layoutMonths col ((mk, W) :: ms)).2.1
          = (layoutWeeks col W).2.1 ++ (layoutMonths (layoutWeeks col W).1 ms).2.1 := by
        simp [layoutMonths]
      have h2 : (layoutMonths col ((mk, W) :: ms)).2.2
          = ⟨mk, col, (layoutWeeks col W).1 - 1, (layoutWeeks col W).2.2⟩
              :: (layoutMonths (layoutWeeks col W).1 ms).2.2 := by
        simp [layoutMonths, hguard]
      have hspan : List.range' col ((layoutWeeks col W).1 - 1 + 1 - col)
          = List.range' col (weekTotal W) := by
        congr 1
        rw [hw1]
        omega
      refine ⟨?_, ?_, ?_⟩
      · rw [h1, hws1, ih1]
        have hmapflat : ((((mk, W) :: ms).map (fun p => (p.2.map Prod.snd).flatten)).flatten)
            = (W.map Prod.snd).flatten
              ++ ((ms.map (fun p => (p.2.map Prod.snd).flatten)).flatten) := by simp
        rw [hmt, hmapflat, range'_split,
          List.zip_append (by rw [List.length_range', flatten_snd_length]), hw1]
      · rw [h2]
        simp only [List.map_cons, List.flatten_cons]
        rw [ih2, hspan, hmt, range'_split, hw1]
      · rw [h2]
        intro m hm
        rcases List.mem_cons.mp hm with h | h
        · rw [h]
          simp only
          rw [hws2, hspan]
        · exact ih3 m h

theorem gridDates_valid {s : Date} (hs : s.Valid) (e : Date) :
    ∀ d ∈ gridDates s e, d.Valid := by
  intro d hd
  obtain ⟨i, _, rfl⟩ := List.mem_map.mp hd
  exact valid_addDays hs i

theorem weekdaysOf_valid {s : Date} (hs : s.Valid) (e : Date) :
    ∀ d ∈ weekdaysOf s e, d.Valid := fun d hd =>
  gridDates_valid hs e d (List.mem_of_mem_filter hd)

theorem gridDates_pairwise {s : Date} (hs : s.Valid) (e : Date) :
    (gridDates s e).Pairwise Rmw := by
  unfold gridDates
  rw [List.pairwise_map]
  exact (List.pairwise_lt_range _).imp (fun hij => Rmw_addDays hs (le_of_lt hij))

theorem weekdaysOf_pairwise {s : Date} (hs : s.Valid) (e : Date) :
    (weekdaysOf s e).Pairwise Rmw :=
  (gridDates_pairwise hs e).sublist (List.filter_sublist _)

theorem monthKey_iff_monthIdx {a b : Date} (ha : a.Valid) (hb : b.Valid) :
    monthKey a = monthKey b ↔ monthIdx a = monthIdx b := by
  obtain ⟨_, ham1, ham2, _, _⟩ := ha
  obtain ⟨_, hbm1, hbm2, _, _⟩ := hb
  unfold monthKey monthIdx
  rw [Prod.mk.injEq]
  constructor
  · intro h; omega
  · intro h; omega

/-- The nested month/week grouping of the weekday dates flattens back to
them in order, and every month bucket and week bucket is nonempty. -/
theorem datesByMonthWeek_spec {s : Date} (hs : s.Valid) (e : Date) :
    ((datesByMonthWeek (weekdaysOf s e)).map
        (fun p => (p.2.map Prod.snd).flatten)).flatten = weekdaysOf s e
    ∧ (∀ p ∈ datesByMonthWeek (weekdaysOf s e), p.2 ≠ [] ∧ ∀ w ∈ p.2, w.2 ≠ []) := by
  have hvalid : ∀ d ∈ weekdaysOf s e, d.Valid := weekdaysOf_valid hs e
  have hpw : (weekdaysOf s e).Pairwise Rmw := weekdaysOf_pairwise hs e
  have hmono : (weekdaysOf s e).Pairwise (fun a b => monthIdx a ≤ monthIdx b) :=
    hpw.imp (fun h => h.1)
  have hsep : ∀ a ∈ weekdaysOf s e, ∀ b ∈ weekdaysOf s e,
      (monthKey a = monthKey b ↔ monthIdx a = monthIdx b) :=
    fun a ha b hb => monthKey_iff_monthIdx (hvalid a ha) (hvalid b hb)
  obtain ⟨hflat, hbuckets, _⟩ := groupByKey_spec monthKey monthIdx _ hmono hsep
  have hinner : ∀ p ∈ groupByKey monthKey (weekdaysOf s e),
      ((groupByKey weekKey p.2).map Prod.snd).flatten = p.2
      ∧ ∀ q ∈ groupByKey weekKey p.2, q.2 ≠ [] := by
    intro p hp
    obtain ⟨hne, hsub, hkeys⟩ := hbuckets p hp
    have hpwv : p.2.Pairwise Rmw := hpw.sublist hsub
    have hwmono : p.2.Pairwise (fun a b => weekKey a ≤ weekKey b) := by
      refine List.Pairwise.imp_of_mem ?_ hpwv
      intro a b ha hb hr
      apply hr.2
      have h1 : monthKey a = monthKey b := by rw [hkeys a ha, hkeys b hb]
      unfold monthKey at h1
      rw [Prod.mk.injEq] at h1
      unfold monthIdx
      omega
    obtain ⟨hf, hb2, _⟩ := groupByKey_spec weekKey weekKey p.2 hwmono (fun a _ b _ => Iff.rfl)
    exact ⟨hf, fun q hq => (hb2 q hq).1⟩
  rw [datesByMonthWeek_eq]
  constructor
  · rw [List.map_map]
    have hcongr : (groupByKey monthKey (weekdaysOf s e)).map
          ((fun p => (p.2.map Prod.snd).flatten)
            ∘ (fun p => (p.1, groupByKey weekKey p.2)))
        = (groupByKey monthKey (weekdaysOf s e)).map Prod.snd := by
      apply List.map_congr_left
      intro p hp
      exact (hinner p hp).1
    rw [hcongr, hflat]
  · intro q hq
    obtain ⟨p, hp, rfl⟩ := List.mem_map.mp hq
    obtain ⟨hif, hiq⟩ := hinner p hp
    obtain ⟨hne, _, _⟩ := hbuckets p hp
    constructor
    · intro hnil
      have hnil' : groupByKey weekKey p.2 = [] := hnil
      rw [hnil'] at hif
      simp at hif
      exact hne hif
    · intro w hw
      exact hiq w hw

/-!
## Per-target contributions

`tag…Dates` give, for one resolved target token, the dates appended to one
employee's `PTO`/`Travel`/`Holiday` list by the loop body of lines
287–298; `applyTarget_eq` proves they characterise `applyTarget`.
-/

def isHolidayTag (tag : String) : Bool :=
  tag == "_HOLIDAY_US" || tag == "_HOLIDAY_FRANCE" || tag == "_HOLIDAY_COMPANY"

def tagHolidayDates (loc : String) (ev : RawEvent) (tag : String) : List Date :=
  if tag = "_HOLIDAY_US" then (if loc = "US" then eventDates ev else [])
  else if tag = "_HOLIDAY_FRANCE" then (if loc = "France" then eventDates ev else [])
  else if tag = "_HOLIDAY_COMPANY" then eventDates ev
  else []

def tagPtoDates (names : List String) (nm : String) (ev : RawEvent) (tag : String) :
    List Date :=
  if tag = "_HOLIDAY_US" then []
  else if tag = "_HOLIDAY_FRANCE" then []
  else if tag = "_HOLIDAY_COMPANY" then []
  else if names.contains tag then
    (if ev.type = "P" then (if nm = tag then eventDates ev else []) else [])
  else []

def tagTravelDates (names : List String) (nm : String) (ev : RawEvent) (tag : String) :
    List Date :=
  if tag = "_HOLIDAY_US" then []
  else if tag = "_HOLIDAY_FRANCE" then []
  else if tag = "_HOLIDAY_COMPANY" then []
  else if names.contains tag then
    (if ev.type = "P" then []
     else if ev.type = "T" then (if nm = tag then eventDates ev else []) else [])
  else []

theorem applyTarget_eq (ev : RawEvent) (tag : String) (st : List EmpState) :
    applyTarget ev tag st = st.map fun e =>
      { e with pto := e.pto ++ tagPtoDates (st.map EmpState.name) e.name ev tag,
               travel := e.travel ++ tagTravelDates (st.map EmpState.name) e.name ev tag,
               holiday := e.holiday ++ tagHolidayDates e.location ev tag } := by
  unfold applyTarget
  by_cases h1 : tag = "_HOLIDAY_US"
  · rw [if_pos h1]
    apply List.map_congr_left
    intro e _
    unfold tagPtoDates tagTravelDates tagHolidayDates
    simp only [if_pos h1]
    by_cases hloc : e.location = "US" <;> simp [hloc]
  · rw [if_neg h1]
    by_cases h2 : tag = "_HOLIDAY_FRANCE"
    · rw [if_pos h2]
      apply List.map_congr_left
      intro e _
      unfold tagPtoDates tagTravelDates tagHolidayDates
      simp only [if_neg h1, if_pos h2]
      by_cases hloc : e.location = "France" <;> simp [hloc]
    · rw [if_neg h2]
      by_cases h3 : tag = "_HOLIDAY_COMPANY"
      · rw [if_pos h3]
        apply List.map_congr_left
        intro e _
        unfold tagPtoDates tagTravelDates tagHolidayDates
        simp only [if_neg h1, if_neg h2, if_pos h3]
        simp
      · rw [if_neg h3]
        by_cases h4 : (st.map EmpState.name).contains tag
        · rw [if_pos h4]
          by_cases h5 : ev.type = "P"
          · rw [if_pos h5]
            apply List.map_congr_left
            intro e _
            unfold tagPtoDates tagTravelDates tagHolidayDates
            simp only [if_neg h1, if_neg h2, if_neg h3, if_pos h4, if_pos h5]
            by_cases hn : e.name = tag <;> simp [hn]
          · rw [if_neg h5]
            by_cases h6 : ev.type = "T"
            · rw [if_pos h6]
              apply List.map_congr_left
              intro e _
              unfold tagPtoDates tagTravelDates tagHolidayDates
              simp only [if_neg h1, if_neg h2, if_neg h3, if_pos h4, if_neg h5, if_pos h6]
              by_cases hn : e.name = tag <;> simp [hn]
            · rw [if_neg h6]
              symm
              conv_rhs => rw [← List.map_id st]
              apply List.map_congr_left
              intro e _
              unfold tagPtoDates tagTravelDates tagHolidayDates
              simp only [if_neg h1, if_neg h2, if_neg h3, if_pos h4, if_neg h5, if_neg h6]
              simp
        · rw [if_neg h4]
          symm
          conv_rhs => rw [← List.map_id st]
          apply List.map_congr_left
          intro e _
          unfold tagPtoDates tagTravelDates tagHolidayDates
          have h4' : ((st.map EmpState.name).contains tag) = false := by
            simpa using h4
          simp only [if_neg h1, if_neg h2, if_neg h3, h4']
          simp

theorem applyTarget_names (ev : RawEvent) (tag : String) (st : List EmpState) :
    (applyTarget ev tag st).map EmpState.name = st.map EmpState.name := by
  rw [applyTarget_eq, List.map_map]
  rfl

theorem applyEvent_eq (ev : RawEvent) (ts : List String) : ∀ st : List EmpState,
    applyEvent st ev ts = st.map fun e =>
      { e with pto := e.pto ++ ts.flatMap (tagPtoDates (st.map EmpState.name) e.name ev),
               travel := e.travel ++ ts.flatMap (tagTravelDates (st.map EmpState.name) e.name ev),
               holiday := e.holiday ++ ts.flatMap (tagHolidayDates e.location ev) } := by
  induction ts with
  | nil =>
      intro st
      show st = _
      conv_lhs => rw [← List.map_id st]
      apply List.map_congr_left
      intro e _
      simp
  | cons t ts ih =>
      intro st
      show applyEvent (applyTarget ev t st) ev ts = _
      rw [ih (applyTarget ev t st), applyTarget_names, applyTarget_eq, List.map_map]
      apply List.map_congr_left
      intro e _
      simp only [Function.comp_apply, List.flatMap_cons]
      rw [EmpState.mk.injEq]
      refine ⟨rfl, rfl, ?_, ?_, ?_⟩ <;> rw [List.append_assoc]

theorem applyEvent_names (ev : RawEvent) (ts : List String) (st : List EmpState) :
    (applyEvent st ev ts).map EmpState.name = st.map EmpState.name := by
  rw [applyEvent_eq, List.map_map]
  rfl

/-- Dates accumulated into one employee's `PTO` list by a whole stream of
associated events. -/
def contribPto (names : List String) (nm : String) (A : List (RawEvent × List String)) :
    List Date :=
  A.flatMap fun p => p.2.flatMap (tagPtoDates names nm p.1)

def contribTravel (names : List String) (nm : String) (A : List (RawEvent × List String)) :
    List Date :=
  A.flatMap fun p => p.2.flatMap (tagTravelDates names nm p.1)

def contribHoliday (loc : String) (A : List (RawEvent × List String)) : List Date :=
  A.flatMap fun p => p.2.flatMap (tagHolidayDates loc p.1)

theorem processEvents_eq (A : List (RawEvent × List String)) : ∀ st : List EmpState,
    processEvents st A = st.map fun e =>
      { e with pto := e.pto ++ contribPto (st.map EmpState.name) e.name A,
               travel := e.travel ++ contribTravel (st.map EmpState.name) e.name A,
               holiday := e.holiday ++ contribHoliday e.location A } := by
  induction A with
  | nil =>
      intro st
      show st = _
      conv_lhs => rw [← List.map_id st]
      apply List.map_congr_left
      intro e _
      simp [contribPto, contribTravel, contribHoliday]
  | cons p A ih =>
      intro st
      obtain ⟨ev, ts⟩ := p
      show processEvents (applyEvent st ev ts) A = _
      rw [ih (applyEvent st ev ts), applyEvent_names, applyEvent_eq, List.map_map]
      apply List.map_congr_left
      intro e _
      simp only [Function.comp_apply, contribPto, contribTravel, contribHoliday,
        List.flatMap_cons]
      rw [EmpState.mk.injEq]
      refine ⟨rfl, rfl, ?_, ?_, ?_⟩ <;> rw [List.append_assoc]

/-- The state produced by step 7 from a fresh roster, in closed form. -/
theorem runState_eq (roster : List Employee) (A : List (RawEvent × List String)) :
    processEvents (initState roster) A = roster.map fun r =>
      ⟨r.name, r.location, contribPto (roster.map Employee.name) r.name A,
        contribTravel (roster.map Employee.name) r.name A,
        contribHoliday r.location A⟩ := by
  rw [processEvents_eq]
  unfold initState
  rw [List.map_map]
  have hnames : ((roster.map fun e => (⟨e.name, e.location, [], [], []⟩ : EmpState)).map
      EmpState.name) = roster.map Employee.name := by
    rw [List.map_map]
    rfl
  rw [hnames]
  apply List.map_congr_left
  intro r _
  simp

theorem setDates_lookup (ds : List Date) (c : Char) : ∀ (m : Date → Option Char) (x : Date),
    setDates m ds c x = if x ∈ ds then some c else m x := by
  induction ds with
  | nil => intro m x; simp [setDates]
  | cons d ds ih =>
      intro m x
      show setDates (fun y => if y = d then some c else m y) ds c x = _
      rw [ih]
      by_cases hx : x ∈ ds
      · simp [hx]
      · by_cases hxd : x = d <;> simp [hx, hxd]

theorem empMatrix_lookup (e : EmpState) (d : Date) :
    empMatrix e d = if d ∈ e.holiday then some 'H'
      else if d ∈ e.travel then some 'T'
      else if d ∈ e.pto then some 'P' else none := by
  unfold empMatrix
  rw [setDates_lookup, setDates_lookup, setDates_lookup]

theorem associate_go (mapping : List (String × List String)) (events : List RawEvent) :
    ∀ acc : List (RawEvent × List String) × List String,
    events.foldl
      (fun acc ev =>
        match lookupMap mapping ev.name with
        | some ts => (acc.1 ++ [(ev, ts)], acc.2)
        | none => (acc.1 ++ [(ev, [])], acc.2 ++ [ev.name]))
      acc
    = (acc.1 ++ events.map (fun ev => (ev, (lookupMap mapping ev.name).getD [])),
       acc.2 ++ (events.filter
          (fun ev => (lookupMap mapping ev.name).isNone)).map RawEvent.name) := by
  induction events with
  | nil => intro acc; simp
  | cons ev evs ih =>
      intro acc
      rw [List.foldl_cons]
      cases hl : lookupMap mapping ev.name with
      | some ts =>
          rw [ih]
          simp [hl, List.filter_cons]
      | none =>
          rw [ih]
          simp [hl, List.filter_cons]

theorem associate_spec (mapping : List (String × List String)) (events : List RawEvent) :
    (associate mapping events).1
        = events.map (fun ev => (ev, (lookupMap mapping ev.name).getD []))
    ∧ (associate mapping events).2
        = (events.filter (fun ev => (lookupMap mapping ev.name).isNone)).map RawEvent.name := by
  unfold associate
  rw [associate_go]
  constructor <;> rfl

theorem eventDates_ordinals (ev : RawEvent) (hv : ev.start_date.Valid) :
    (eventDates ev).map toOrdinal
      = List.range' (toOrdinal ev.start_date)
          (toOrdinal ev.end_date - toOrdinal ev.start_date) := by
  unfold eventDates
  rw [List.map_map, List.range'_eq_map_range]
  apply List.map_congr_left
  intro i _
  simp only [Function.comp_apply]
  rw [toOrdinal_addDays hv i]

theorem eventDates_nodup (ev : RawEvent) (hv : ev.start_date.Valid) :
    (eventDates ev).Nodup := by
  have h := eventDates_ordinals ev hv
  have hr : (List.range' (toOrdinal ev.start_date)
      (toOrdinal ev.end_date - toOrdinal ev.start_date)).Nodup := List.nodup_range' _ _
  rw [← h] at hr
  exact hr.of_map toOrdinal

theorem eventDates_valid (ev : RawEvent) (hv : ev.start_date.Valid) :
    ∀ d ∈ eventDates ev, d.Valid := by
  intro d hd
  obtain ⟨i, _, rfl⟩ := List.mem_map.mp hd
  exact valid_addDays hv i

theorem mem_eventDates_ordinal {ev : RawEvent} (hv : ev.start_date.Valid) {d : Date}
    (hd : d ∈ eventDates ev) :
    toOrdinal ev.start_date ≤ toOrdinal d
    ∧ toOrdinal d < toOrdinal ev.end_date := by
  obtain ⟨i, hi, rfl⟩ := List.mem_map.mp hd
  rw [List.mem_range] at hi
  rw [toOrdinal_addDays hv i]
  omega

theorem tagPtoDates_cases (names : List String) (nm : String) (ev : RawEvent) (tag : String) :
    tagPtoDates names nm ev tag = eventDates ev ∨ tagPtoDates names nm ev tag = [] := by
  unfold tagPtoDates
  split_ifs <;> simp

theorem tagTravelDates_cases (names : List String) (nm : String) (ev : RawEvent)
    (tag : String) :
    tagTravelDates names nm ev tag = eventDates ev ∨ tagTravelDates names nm ev tag = [] := by
  unfold tagTravelDates
  split_ifs <;> simp

theorem tagHolidayDates_cases (loc : String) (ev : RawEvent) (tag : String) :
    tagHolidayDates loc ev tag = eventDates ev ∨ tagHolidayDates loc ev tag = [] := by
  unfold tagHolidayDates
  split_ifs <;> simp

theorem mem_contrib {A : List (RawEvent × List String)} {d : Date}
    {F : RawEvent → String → List Date}
    (hF : ∀ ev tag, F ev tag = eventDates ev ∨ F ev tag = [])
    (hd : d ∈ A.flatMap fun p => p.2.flatMap (F p.1)) :
    ∃ p ∈ A, d ∈ eventDates p.1 := by
  rw [List.mem_flatMap] at hd
  obtain ⟨p, hp, hd2⟩ := hd
  rw [List.mem_flatMap] at hd2
  obtain ⟨tag, _, hd3⟩ := hd2
  rcases hF p.1 tag with h | h
  · rw [h] at hd3
    exact ⟨p, hp, hd3⟩
  · rw [h] at hd3
    simp at hd3

/-- The status matrix of a full run, as a single lookup over the roster. -/
theorem lookupStatus_runState (roster : List Employee) (A : List (RawEvent × List String))
    (n : String) (d : Date) :
    lookupStatus (processEvents (initState roster) A) n d
      = match roster.find? (fun r => r.name = n) with
        | some r => empMatrix ⟨r.name, r.location,
            contribPto (roster.map Employee.name) r.name A,
            contribTravel (roster.map Employee.name) r.name A,
            contribHoliday r.location A⟩ d
        | none => none := by
  rw [runState_eq]
  unfold lookupStatus
  rw [List.find?_map]
  have hpred : ((fun e : EmpState => decide (e.name = n)) ∘
      (fun r : Employee => (⟨r.name, r.location,
        contribPto (roster.map Employee.name) r.name A,
        contribTravel (roster.map Employee.name) r.name A,
        contribHoliday r.location A⟩ : EmpState)))
      = fun r : Employee => decide (r.name = n) := rfl
  rw [hpred]
  cases roster.find? (fun r => decide (r.name = n)) <;> rfl

/-!
## Claim theorems
-/

/-- C1: the status matrix is built by writing all PTO dates, then all
Travel dates, then all Holiday dates for each employee, each write
unconditionally overwriting the (employee, day) entry; consequently for
any (employee, day) holding several statuses, Holiday beats Travel and
PTO, and Travel beats PTO. -/
theorem c1_status_precedence (sts : List EmpState) (n : String) (d : Date) (e : EmpState)
    (he : sts.find? (fun x => x.name = n) = some e) :
    (d ∈ e.holiday → lookupStatus sts n d = some 'H')
    ∧ (d ∉ e.holiday → d ∈ e.travel → lookupStatus sts n d = some 'T')
    ∧ (d ∉ e.holiday → d ∉ e.travel → d ∈ e.pto → lookupStatus sts n d = some 'P') := by
  unfold lookupStatus
  rw [he]
  dsimp only
  rw [empMatrix_lookup]
  refine ⟨?_, ?_, ?_⟩
  · intro h
    rw [if_pos h]
  · intro h1 h2
    rw [if_neg h1, if_pos h2]
  · intro h1 h2 h3
    rw [if_neg h1, if_neg h2, if_pos h3]

theorem c1_status_precedence_witness :
    lookupStatus [⟨"Alice", "US", [⟨2024, 7, 4⟩], [⟨2024, 7, 4⟩], [⟨2024, 7, 4⟩]⟩]
        "Alice" ⟨2024, 7, 4⟩ = some 'H' :=
  (c1_status_precedence
      [⟨"Alice", "US", [⟨2024, 7, 4⟩], [⟨2024, 7, 4⟩], [⟨2024, 7, 4⟩]⟩]
      "Alice" ⟨2024, 7, 4⟩
      ⟨"Alice", "US", [⟨2024, 7, 4⟩], [⟨2024, 7, 4⟩], [⟨2024, 7, 4⟩]⟩
      (by decide)).1 (by decide)

/-- C2 counterexample: the window filter keeps any event overlapping
`[start_date, end_date)` (lines 246–249), but step 7 expands the event's
full `[event.start, event.end)` span, so an event that only partially
overlaps the window puts days outside the window into the matrix: with
window 2024-03-01 … 2024-03-11 and a PTO event 2024-02-28 → 2024-03-03
for Alice, the matrix holds (Alice, 2024-02-28) even though 2024-02-28
is before the window start. -/
theorem c2_counterexample :
    lookupStatus (runPipeline [⟨"Alice", "US"⟩]
        [⟨"Offsite", ⟨2024, 2, 28⟩, ⟨2024, 3, 3⟩, "P"⟩]
        [("Offsite", ["Alice"])] ⟨2024, 3, 1⟩ ⟨2024, 3, 11⟩).1
      "Alice" ⟨2024, 2, 28⟩ = some 'P'
    ∧ toOrdinal ⟨2024, 2, 28⟩ < toOrdinal ⟨2024, 3, 1⟩ := by
  constructor
  · decide
  · decide

/-- C2 (amended): every key of the produced status matrix names a roster
employee, and its day lies in the half-open span of some event that
overlaps the reporting window; when such an event only partially overlaps
the window, that day may lie outside `[start_date, end_date)`. -/
theorem c2_amended (roster : List Employee) (events : List RawEvent)
    (mapping : List (String × List String)) (ws we : Date) (n : String) (d : Date) (c : Char)
    (hvalid : ∀ ev ∈ events, ev.start_date.Valid)
    (h : lookupStatus (runPipeline roster events mapping ws we).1 n d = some c) :
    n ∈ roster.map Employee.name
    ∧ ∃ ev ∈ eventsInRange events ws we,
        toOrdinal ev.start_date ≤ toOrdinal d ∧ toOrdinal d < toOrdinal ev.end_date := by
  unfold runPipeline at h
  rw [lookupStatus_runState] at h
  cases hf : roster.find? (fun r => r.name = n) with
  | none => rw [hf] at h; exact absurd h (by simp)
  | some r =>
      rw [hf] at h
      dsimp only at h
      have hrmem : r ∈ roster := List.mem_of_find?_eq_some hf
      have hrname : r.name = n := by
        have := List.find?_some hf
        simpa using this
      have hn : n ∈ roster.map Employee.name := by
        rw [← hrname]
        exact List.mem_map_of_mem Employee.name hrmem
      refine ⟨hn, ?_⟩
      rw [empMatrix_lookup] at h
      have hA : (associate mapping (eventsInRange events ws we)).1
          = (eventsInRange events ws we).map
              (fun ev => (ev, (lookupMap mapping ev.name).getD [])) :=
        (associate_spec mapping _).1
      have hmem : ∃ p ∈ (associate mapping (eventsInRange events ws we)).1,
          d ∈ eventDates p.1 := by
        by_cases hh : d ∈ contribHoliday r.location
            (associate mapping (eventsInRange events ws we)).1
        · exact mem_contrib (tagHolidayDates_cases r.location) hh
        · rw [if_neg hh] at h
          by_cases ht : d ∈ contribTravel (roster.map Employee.name) r.name
              (associate mapping (eventsInRange events ws we)).1
          · exact mem_contrib (tagTravelDates_cases (roster.map Employee.name) r.name) ht
          · rw [if_neg ht] at h
            by_cases hp : d ∈ contribPto (roster.map Employee.name) r.name
                (associate mapping (eventsInRange events ws we)).1
            · exact mem_contrib (tagPtoDates_cases (roster.map Employee.name) r.name) hp
            · rw [if_neg hp] at h
              exact absurd h (by simp)
      obtain ⟨p, hpA, hpd⟩ := hmem
      rw [hA] at hpA
      obtain ⟨ev, hev, rfl⟩ := List.mem_map.mp hpA
      have hvs : ev.start_date.Valid :=
        hvalid ev (List.mem_of_mem_filter hev)
      obtain ⟨hlo, hhi⟩ := mem_eventDates_ordinal hvs hpd
      exact ⟨ev, hev, hlo, hhi⟩

theorem c2_amended_witness :
    "Alice" ∈ ([⟨"Alice", "US"⟩] : List Employee).map Employee.name
    ∧ ∃ ev ∈ eventsInRange [⟨"Offsite", ⟨2024, 2, 28⟩, ⟨2024, 3, 3⟩, "P"⟩]
        ⟨2024, 3, 1⟩ ⟨2024, 3, 11⟩,
        toOrdinal ev.start_date ≤ toOrdinal ⟨2024, 2, 28⟩
        ∧ toOrdinal ⟨2024, 2, 28⟩ < toOrdinal ev.end_date :=
  c2_amended [⟨"Alice", "US"⟩] [⟨"Offsite", ⟨2024, 2, 28⟩, ⟨2024, 3, 3⟩, "P"⟩]
    [("Offsite", ["Alice"])] ⟨2024, 3, 1⟩ ⟨2024, 3, 11⟩ "Alice" ⟨2024, 2, 28⟩ 'P'
    (by decide) (by decide)

/-- C3: for every inclusive date range, the header walk writes exactly one
day column per Monday–Friday date of the range, and a range with no
weekday yields zero columns and a header with no month groups (and hence
no week groups), with every function total — no error. -/
theorem c3_column_count (s e : Date) :
    (layoutHeader s e).2.1.length = (weekdaysOf s e).length
    ∧ (weekdaysOf s e = [] →
        (layoutHeader s e).2.1 = [] ∧ (layoutHeader s e).2.2 = []) := by
  constructor
  · unfold layoutHeader
    obtain ⟨_, h2⟩ := layoutMonths_count (datesByMonthWeek (weekdaysOf s e)) 2
    rw [h2, monthTotal_datesByMonthWeek]
  · intro hw
    unfold layoutHeader
    rw [hw]
    exact ⟨rfl, rfl⟩

/-- C4: month-group and week-group header spans exactly tile the column
axis — the week spans inside each month group concatenate to that month
group's span, the month spans concatenate to the whole column range
(columns 2 … 2 + number of weekday dates), and the day row lists the
weekday dates in chronological order against exactly those columns. -/
theorem c4_header_tiling (s e : Date) (hs : s.Valid) :
    ((layoutHeader s e).2.2.map
        (fun m => List.range' m.startCol (m.stopCol + 1 - m.startCol))).flatten
      = List.range' 2 (weekdaysOf s e).length
    ∧ (∀ m ∈ (layoutHeader s e).2.2,
        (m.weeks.map (fun w => List.range' w.2.1 (w.2.2 + 1 - w.2.1))).flatten
          = List.range' m.startCol (m.stopCol + 1 - m.startCol))
    ∧ (layoutHeader s e).2.1
        = (List.range' 2 (weekdaysOf s e).length).zip (weekdaysOf s e) := by
  obtain ⟨hflat, hne⟩ := datesByMonthWeek_spec hs e
  obtain ⟨hm1, hm2, hm3⟩ := layoutMonths_spec (datesByMonthWeek (weekdaysOf s e)) 2 hne
  have htot : monthTotal (datesByMonthWeek (weekdaysOf s e)) = (weekdaysOf s e).length :=
    monthTotal_datesByMonthWeek _
  refine ⟨?_, ?_, ?_⟩
  · unfold layoutHeader
    rw [hm2, htot]
  · unfold layoutHeader
    exact hm3
  · unfold layoutHeader
    rw [hm1, htot, hflat]

theorem c4_header_tiling_witness :
    ((layoutHeader ⟨2024, 3, 28⟩ ⟨2024, 4, 2⟩).2.2.map
        (fun m => List.range' m.startCol (m.stopCol + 1 - m.startCol))).flatten
      = List.range' 2 (weekdaysOf ⟨2024, 3, 28⟩ ⟨2024, 4, 2⟩).length
    ∧ (∀ m ∈ (layoutHeader ⟨2024, 3, 28⟩ ⟨2024, 4, 2⟩).2.2,
        (m.weeks.map (fun w => List.range' w.2.1 (w.2.2 + 1 - w.2.1))).flatten
          = List.range' m.startCol (m.stopCol + 1 - m.startCol))
    ∧ (layoutHeader ⟨2024, 3, 28⟩ ⟨2024, 4, 2⟩).2.1
        = (List.range' 2 (weekdaysOf ⟨2024, 3, 28⟩ ⟨2024, 4, 2⟩).length).zip
            (weekdaysOf ⟨2024, 3, 28⟩ ⟨2024, 4, 2⟩) :=
  c4_header_tiling ⟨2024, 3, 28⟩ ⟨2024, 4, 2⟩ (by decide)

/-- C5: date expansion is exclusive of the end date and hits each calendar
day of `[start_date, end_date)` exactly once: the ordinals of the expanded
days are precisely `start_ordinal, …, end_ordinal − 1` in order, without
duplicates, and all expanded days are real calendar dates; every resolved
employee target receives this same day list. -/
theorem c5_date_expansion (ev : RawEvent) (hv : ev.start_date.Valid) :
    (eventDates ev).map toOrdinal
        = List.range' (toOrdinal ev.start_date)
            (toOrdinal ev.end_date - toOrdinal ev.start_date)
    ∧ (eventDates ev).Nodup
    ∧ (∀ d ∈ eventDates ev, d.Valid)
    ∧ (eventDates ev).length = toOrdinal ev.end_date - toOrdinal ev.start_date :=
  ⟨eventDates_ordinals ev hv, eventDates_nodup ev hv, eventDates_valid ev hv, by
    unfold eventDates
    simp⟩

theorem c5_date_expansion_witness :
    ((eventDates ⟨"Site Visit", ⟨2024, 3, 4⟩, ⟨2024, 3, 7⟩, "T"⟩).map toOrdinal
        = List.range' (toOrdinal ⟨2024, 3, 4⟩) (toOrdinal ⟨2024, 3, 7⟩ - toOrdinal ⟨2024, 3, 4⟩)
      ∧ (eventDates ⟨"Site Visit", ⟨2024, 3, 4⟩, ⟨2024, 3, 7⟩, "T"⟩).Nodup
      ∧ (∀ d ∈ eventDates ⟨"Site Visit", ⟨2024, 3, 4⟩, ⟨2024, 3, 7⟩, "T"⟩, d.Valid)
      ∧ (eventDates ⟨"Site Visit", ⟨2024, 3, 4⟩, ⟨2024, 3, 7⟩, "T"⟩).length
          = toOrdinal ⟨2024, 3, 7⟩ - toOrdinal ⟨2024, 3, 4⟩)
    ∧ applyEvent (initState [⟨"Alice", "US"⟩, ⟨"Bob", "France"⟩])
        ⟨"Site Visit", ⟨2024, 3, 4⟩, ⟨2024, 3, 7⟩, "T"⟩ ["Alice", "Bob"]
        = [⟨"Alice", "US", [], [⟨2024, 3, 4⟩, ⟨2024, 3, 5⟩, ⟨2024, 3, 6⟩], []⟩,
           ⟨"Bob", "France", [], [⟨2024, 3, 4⟩, ⟨2024, 3, 5⟩, ⟨2024, 3, 6⟩], []⟩] :=
  ⟨c5_date_expansion ⟨"Site Visit", ⟨2024, 3, 4⟩, ⟨2024, 3, 7⟩, "T"⟩ (by decide), by decide⟩

/-- C6: holiday-scope fan-out marks exactly the matching employees —
`_HOLIDAY_US` extends the Holiday list of exactly the employees located
`US`, `_HOLIDAY_FRANCE` exactly those located `France`, and
`_HOLIDAY_COMPANY` every employee; in the concrete scenario a US scope on
2024-07-04 over roster {Alice: US, Bob: France} yields a Holiday entry
for Alice on that day and no entry at all for Bob. -/
theorem c6_holiday_scope (ev : RawEvent) (st : List EmpState) :
    applyTarget ev "_HOLIDAY_US" st
        = st.map (fun e =>
            { e with holiday := e.holiday ++ if e.location = "US" then eventDates ev else [] })
    ∧ applyTarget ev "_HOLIDAY_FRANCE" st
        = st.map (fun e =>
            { e with holiday := e.holiday
                ++ if e.location = "France" then eventDates ev else [] })
    ∧ applyTarget ev "_HOLIDAY_COMPANY" st
        = st.map (fun e => { e with holiday := e.holiday ++ eventDates ev })
    ∧ lookupStatus (runPipeline [⟨"Alice", "US"⟩, ⟨"Bob", "France"⟩]
          [⟨"Independence Day", ⟨2024, 7, 4⟩, ⟨2024, 7, 5⟩, "P"⟩]
          [("Independence Day", ["_HOLIDAY_US"])] ⟨2024, 7, 1⟩ ⟨2024, 8, 1⟩).1
          "Alice" ⟨2024, 7, 4⟩ = some 'H'
    ∧ lookupStatus (runPipeline [⟨"Alice", "US"⟩, ⟨"Bob", "France"⟩]
          [⟨"Independence Day", ⟨2024, 7, 4⟩, ⟨2024, 7, 5⟩, "P"⟩]
          [("Independence Day", ["_HOLIDAY_US"])] ⟨2024, 7, 1⟩ ⟨2024, 8, 1⟩).1
          "Bob" ⟨2024, 7, 4⟩ = none := by
  refine ⟨?_, ?_, ?_, by decide, by decide⟩
  · unfold applyTarget
    rw [if_pos rfl]
    apply List.map_congr_left
    intro e _
    by_cases hloc : e.location = "US" <;> simp [hloc]
  · unfold applyTarget
    rw [if_neg (by decide), if_pos rfl]
    apply List.map_congr_left
    intro e _
    by_cases hloc : e.location = "France" <;> simp [hloc]
  · unfold applyTarget
    rw [if_neg (by decide), if_neg (by decide), if_pos rfl]

theorem eventDates_type (ev : RawEvent) (t : String) :
    eventDates { ev with type := t } = eventDates ev := rfl

/-- C7: once a resolved target is one of the three holiday-scope tokens,
the event's original type field is ignored — the update is identical for
any value of `type` — and the affected employees' days go into the
Holiday list only (rendered as status Holiday), never PTO or Travel. -/
theorem c7_holiday_type_ignored (ev : RawEvent) (t : String) (st : List EmpState)
    (tag : String) (htag : isHolidayTag tag = true) :
    applyTarget { ev with type := t } tag st = applyTarget ev tag st
    ∧ applyTarget ev tag st
        = st.map fun e =>
            { e with holiday := e.holiday ++ tagHolidayDates e.location ev tag } := by
  have hcases : tag = "_HOLIDAY_US" ∨ tag = "_HOLIDAY_FRANCE" ∨ tag = "_HOLIDAY_COMPANY" := by
    unfold isHolidayTag at htag
    rcases Bool.or_eq_true_iff.mp htag with h | h
    · rcases Bool.or_eq_true_iff.mp h with h1 | h1
      · exact Or.inl (by simpa using h1)
      · exact Or.inr (Or.inl (by simpa using h1))
    · exact Or.inr (Or.inr (by simpa using h))
  constructor
  · rcases hcases with h | h | h <;> subst h <;> unfold applyTarget <;>
      simp [eventDates_type]
  · rcases hcases with h | h | h <;> subst h <;>
    · rw [applyTarget_eq]
      apply List.map_congr_left
      intro e _
      unfold tagPtoDates tagTravelDates
      simp

theorem c7_holiday_type_ignored_witness :
    applyTarget { RawEvent.mk "Bastille Day" ⟨2024, 7, 14⟩ ⟨2024, 7, 15⟩ "P" with type := "T" }
        "_HOLIDAY_FRANCE" [⟨"Bob", "France", [], [], []⟩]
      = applyTarget ⟨"Bastille Day", ⟨2024, 7, 14⟩, ⟨2024, 7, 15⟩, "P"⟩
        "_HOLIDAY_FRANCE" [⟨"Bob", "France", [], [], []⟩]
    ∧ applyTarget ⟨"Bastille Day", ⟨2024, 7, 14⟩, ⟨2024, 7, 15⟩, "P"⟩
        "_HOLIDAY_FRANCE" [⟨"Bob", "France", [], [], []⟩]
      = ([⟨"Bob", "France", [], [], []⟩] : List EmpState).map (fun e =>
          { e with holiday :=
                     e.holiday ++ tagHolidayDates e.location
                       (RawEvent.mk "Bastille Day" ⟨2024, 7, 14⟩ ⟨2024, 7, 15⟩ "P")
                       "_HOLIDAY_FRANCE" }) :=
  c7_holiday_type_ignored ⟨"Bastille Day", ⟨2024, 7, 14⟩, ⟨2024, 7, 15⟩, "P"⟩
    "T" [⟨"Bob", "France", [], [], []⟩] "_HOLIDAY_FRANCE" (by decide)

/-- C8 counterexample: when the resolver's mapping is present but maps the
event name to an explicit empty list, the code takes the
`mapped_employees is not None` branch (line 264), so the event gets zero
targets and contributes zero matrix entries, but its name is NOT added to
`unmatched_event_names` — contradicting the claim that every
empty-target event is recorded there. -/
theorem c8_counterexample :
    lookupMap [("Team Offsite", ([] : List String))] "Team Offsite" = some []
    ∧ (runPipeline [⟨"Alice", "US"⟩]
        [⟨"Team Offsite", ⟨2024, 3, 4⟩, ⟨2024, 3, 6⟩, "P"⟩]
        [("Team Offsite", [])] ⟨2024, 3, 1⟩ ⟨2024, 4, 1⟩).1
      = [⟨"Alice", "US", [], [], []⟩]
    ∧ (runPipeline [⟨"Alice", "US"⟩]
        [⟨"Team Offsite", ⟨2024, 3, 4⟩, ⟨2024, 3, 6⟩, "P"⟩]
        [("Team Offsite", [])] ⟨2024, 3, 1⟩ ⟨2024, 4, 1⟩).2
      = [] := by
  refine ⟨by decide, by decide, by decide⟩

/-- C8 (amended): an event whose resolved target list is empty contributes
zero status-matrix entries and the run continues; the event's name is
recorded in the unmatched-name diagnostic set exactly when the name is
absent from the resolver's mapping — an explicit empty mapping entry
yields zero targets without being recorded as unmatched. -/
theorem c8_empty_targets (roster : List Employee) (events : List RawEvent)
    (mapping : List (String × List String)) (ws we : Date) (st : List EmpState)
    (ev : RawEvent) (n : String) :
    applyEvent st ev [] = st
    ∧ (n ∈ (runPipeline roster events mapping ws we).2
        ↔ ∃ ev2 ∈ eventsInRange events ws we,
            ev2.name = n ∧ lookupMap mapping n = none) := by
  constructor
  · rfl
  · unfold runPipeline
    rw [(associate_spec mapping _).2]
    constructor
    · intro hmem
      obtain ⟨ev2, hev2, hname⟩ := List.mem_map.mp hmem
      rw [List.mem_filter] at hev2
      refine ⟨ev2, hev2.1, hname, ?_⟩
      have := hev2.2
      rw [hname] at this
      simpa using this
    · rintro ⟨ev2, hin, hname, hnone⟩
      rw [← hname]
      apply List.mem_map_of_mem RawEvent.name
      rw [List.mem_filter]
      refine ⟨hin, ?_⟩
      rw [hname]
      simp [hnone]

/-- C9: duplicating every event (running the same event stream twice)
yields an identical status matrix: per-employee date lists get duplicated,
but each duplicated date is overwritten with the same status code, so
every lookup agrees with the single run — and each (employee, scope day)
carries a single entry, never a double count. -/
theorem c9_idempotent (roster : List Employee) (events : List RawEvent)
    (mapping : List (String × List String)) (ws we : Date) (n : String) (d : Date) :
    lookupStatus (runPipeline roster (events ++ events) mapping ws we).1 n d
      = lookupStatus (runPipeline roster events mapping ws we).1 n d := by
  unfold runPipeline
  rw [lookupStatus_runState, lookupStatus_runState]
  rw [(associate_spec mapping _).1, (associate_spec mapping _).1]
  unfold eventsInRange
  rw [List.filter_append, List.map_append]
  cases hf : roster.find? (fun r => r.name = n) with
  | none => rfl
  | some r =>
      dsimp only
      rw [empMatrix_lookup, empMatrix_lookup]
      simp only [contribPto, contribTravel, contribHoliday, List.flatMap_append,
        List.mem_append, or_self]

/-- C10: a resolved target token that is neither a holiday-scope marker
nor a roster name falls through every branch of lines 287–298: the state
is unchanged (no matrix entries), nothing is raised, and the
unmatched-name set is untouched — a name with a resolver entry is never
recorded there, whatever tokens the entry contains. -/
theorem c10_unknown_token (ev : RawEvent) (st : List EmpState) (tag : String)
    (roster : List Employee) (events : List RawEvent)
    (mapping : List (String × List String)) (ws we : Date) (n : String)
    (h1 : isHolidayTag tag = false)
    (h2 : (st.map EmpState.name).contains tag = false)
    (h3 : lookupMap mapping n ≠ none) :
    applyTarget ev tag st = st
    ∧ n ∉ (runPipeline roster events mapping ws we).2 := by
  have hcases : ¬ tag = "_HOLIDAY_US" ∧ ¬ tag = "_HOLIDAY_FRANCE"
      ∧ ¬ tag = "_HOLIDAY_COMPANY" := by
    unfold isHolidayTag at h1
    simp only [Bool.or_eq_false_iff, beq_eq_false_iff_ne, ne_eq] at h1
    exact ⟨h1.1.1, h1.1.2, h1.2⟩
  constructor
  · unfold applyTarget
    rw [if_neg hcases.1, if_neg hcases.2.1, if_neg hcases.2.2,
      if_neg (by rw [h2]; simp)]
  · unfold runPipeline
    rw [(associate_spec mapping _).2]
    intro hmem
    obtain ⟨ev2, hev2, hname⟩ := List.mem_map.mp hmem
    rw [List.mem_filter] at hev2
    apply h3
    rw [← hname]
    simpa using hev2.2

theorem c10_unknown_token_witness :
    applyTarget ⟨"Offsite", ⟨2024, 3, 4⟩, ⟨2024, 3, 6⟩, "P"⟩ "Charlie"
        [⟨"Alice", "US", [], [], []⟩]
      = [⟨"Alice", "US", [], [], []⟩]
    ∧ "Offsite" ∉ (runPipeline [⟨"Alice", "US"⟩]
        [⟨"Offsite", ⟨2024, 3, 4⟩, ⟨2024, 3, 6⟩, "P"⟩]
        [("Offsite", ["Charlie"])] ⟨2024, 3, 1⟩ ⟨2024, 4, 1⟩).2 :=
  c10_unknown_token ⟨"Offsite", ⟨2024, 3, 4⟩, ⟨2024, 3, 6⟩, "P"⟩
    [⟨"Alice", "US", [], [], []⟩] "Charlie" [⟨"Alice", "US"⟩]
    [⟨"Offsite", ⟨2024, 3, 4⟩, ⟨2024, 3, 6⟩, "P"⟩]
    [("Offsite", ["Charlie"])] ⟨2024, 3, 1⟩ ⟨2024, 4, 1⟩ "Offsite"
    (by decide) (by decide) (by decide)

theorem c3_column_count_witness :
    (layoutHeader ⟨2024, 3, 2⟩ ⟨2024, 3, 3⟩).2.1.length
        = (weekdaysOf ⟨2024, 3, 2⟩ ⟨2024, 3, 3⟩).length
    ∧ (layoutHeader ⟨2024, 3, 2⟩ ⟨2024, 3, 3⟩).2.1 = []
    ∧ (layoutHeader ⟨2024, 3, 2⟩ ⟨2024, 3, 3⟩).2.2 = [] :=
  ⟨(c3_column_count ⟨2024, 3, 2⟩ ⟨2024, 3, 3⟩).1,
    ((c3_column_count ⟨2024, 3, 2⟩ ⟨2024, 3, 3⟩).2 (by decide)).1,
    ((c3_column_count ⟨2024, 3, 2⟩ ⟨2024, 3, 3⟩).2 (by decide)).2⟩

theorem c8_empty_targets_witness :
    applyEvent [⟨"Alice", "US", [], [], []⟩]
        ⟨"Team Offsite", ⟨2024, 3, 4⟩, ⟨2024, 3, 6⟩, "P"⟩ []
      = [⟨"Alice", "US", [], [], []⟩]
    ∧ ("Mystery Meeting" ∈ (runPipeline [⟨"Alice", "US"⟩]
          [⟨"Mystery Meeting", ⟨2024, 3, 4⟩, ⟨2024, 3, 6⟩, "P"⟩]
          [("Team Offsite", [])] ⟨2024, 3, 1⟩ ⟨2024, 4, 1⟩).2
        ↔ ∃ ev2 ∈ eventsInRange [⟨"Mystery Meeting", ⟨2024, 3, 4⟩, ⟨2024, 3, 6⟩, "P"⟩]
            ⟨2024, 3, 1⟩ ⟨2024, 4, 1⟩,
            ev2.name = "Mystery Meeting"
            ∧ lookupMap [("Team Offsite", [])] "Mystery Meeting" = none) :=
  c8_empty_targets [⟨"Alice", "US"⟩]
    [⟨"Mystery Meeting", ⟨2024, 3, 4⟩, ⟨2024, 3, 6⟩, "P"⟩]
    [("Team Offsite", [])] ⟨2024, 3, 1⟩ ⟨2024, 4, 1⟩
    [⟨"Alice", "US", [], [], []⟩]
    ⟨"Team Offsite", ⟨2024, 3, 4⟩, ⟨2024, 3, 6⟩, "P"⟩ "Mystery Meeting"
